import Mathlib

/-!
Verification of the some-sass module-graph core and completion layer.

The development shallowly embeds:
* `createVariableCompletionItems` from
  `src/server/src/features/completion/variable-completion.ts` (faithful
  translation; the external string/sassdoc/color helpers that live outside
  the given sources are abstracted as an explicit helper bundle);
* the diagnostics publishing guard of `SomeSassServer.listen`
  (`onDidChangeContent`);
* the Document Store, Path Resolver, Link & Symbol Extractor, Scanner and
  Symbol Resolution Engine, whose implementations are not part of the given
  sources (only their tests and callers are): those are modelled from the
  specification, as marked on each definition.
-/

namespace SomeSass

/-! ## Basic string machinery

Small executable string helpers used throughout the embedding.  We work on
`List Char` for parsing and reason through these rather than the opaque
`String` primitives. -/

def strEndsWith (s suf : String) : Bool :=
  List.isPrefixOf suf.data.reverse s.data.reverse

def strStartsWith (s p : String) : Bool :=
  List.isPrefixOf p.data s.data

/-- JavaScript string truthiness for an optional string: `null`/`undefined`
and the empty string are falsy. -/
def strTruthy : Option String → Bool
  | none => false
  | some s => !(s == "")

/-- JavaScript `a || b` on optional strings. -/
def jsOr (a b : Option String) : Option String :=
  if strTruthy a then a else b

def isSpaceChar (c : Char) : Bool :=
  c == ' ' || c == '\t' || c == '\n' || c == '\r'

def trimChars (cs : List Char) : List Char :=
  ((cs.dropWhile isSpaceChar).reverse.dropWhile isSpaceChar).reverse

/-- Structural `trim` (the `String` primitive does not reduce in the
kernel). -/
def strTrim (s : String) : String := String.mk (trimChars s.data)

def strDrop (s : String) (n : Nat) : String := String.mk (s.data.drop n)

/-- Structural split on a separator character; agrees with `splitOn` for a
one-character separator. -/
def splitOnChar (sep : Char) : List Char → List (List Char)
  | [] => [[]]
  | c :: rest =>
    let r := splitOnChar sep rest
    if c == sep then [] :: r
    else (c :: r.headD []) :: r.tail

def strSplit (s : String) (sep : Char) : List String :=
  (splitOnChar sep s.data).map String.mk

/-- Join path segments with `/`. -/
def joinSegs : List String → String
  | [] => ""
  | [s] => s
  | s :: rest => s ++ "/" ++ joinSegs rest

/-! ## Data model for the completion layer -/

structure SassDocMeta where
  deprecated : Bool
deriving DecidableEq, Repr

/-- A variable symbol as seen by the completion provider: name (with sigil),
raw value, optional owning mixin/function name (parameter membership), and
optional doc-comment metadata. -/
structure ScssVariable where
  name : String
  value : Option String
  mixin : Option String
  sassdoc : Option SassDocMeta
deriving DecidableEq, Repr

/-- The slice of `IScssDocument` consumed by `createVariableCompletionItems`:
URI, display file name, and the variable map's value list in insertion
order (`vars` embeds the source field `variables`, a Lean keyword). -/
structure IScssDocument where
  uri : String
  fileName : String
  vars : List ScssVariable
deriving DecidableEq, Repr

structure TextDocument where
  uri : String
  version : Nat
deriving DecidableEq, Repr

/-- The completion context fields read by the variable completion provider.
`nsp` embeds the source field `namespace` (a Lean keyword). -/
structure CompletionContext where
  nsp : Option String
  word : String
  originalExtension : String
deriving DecidableEq, Repr

inductive CompletionItemKind where
  | color
  | variable
deriving DecidableEq, Repr

structure CompletionItem where
  label : String
  filterText : Option String
  insertText : Option String
  sortText : Option String
  kind : CompletionItemKind
  detail : String
  deprecatedTag : Bool
  documentation : String
deriving DecidableEq, Repr

/-- The helpers `createVariableCompletionItems` imports from modules outside
the given sources (`utils/scss`, `utils/sassdoc`, `utils/string`,
`color-completion`).  They are abstracted as parameters: every theorem below
holds for an arbitrary behaviour of these externals. -/
structure CompletionHelpers where
  isReferencingVariable : ScssVariable → Bool
  getBaseValueFrom : ScssVariable → IScssDocument → Option String
  isColor : String → Option String
  getLimitedString : String → String
  applySassDoc : ScssVariable → String

/-- Modelled from the spec: `rePrivate` (from `completion-utils`, not among
the given sources) is the privacy naming convention for variables — a
variable is private when its name starts with `$-` or `$_` (the
privacy-marker prefix after the sigil). -/
def rePrivateTest (name : String) : Bool :=
  strStartsWith name "$-" || strStartsWith name "$_"

/-- Modelled from the spec: `asDollarlessVariable` (from `utils/string`, not
among the given sources) strips the leading `$` sigil from a variable
name. -/
def asDollarlessVariable (name : String) : String :=
  if strStartsWith name "$" then strDrop name 1 else name

/-- One iteration of the loop body of `createVariableCompletionItems`
(`variable-completion.ts`, lines 25–107).  Returns `none` exactly when the
source executes `continue`. -/
def variableCompletionItem (H : CompletionHelpers)
    (scssDocument : IScssDocument) (currentDocument : TextDocument)
    (context : CompletionContext) (hiddenSymbols : List String)
    (prefixText : String) (v : ScssVariable) : Option CompletionItem :=
  let value :=
    if H.isReferencingVariable v then
      H.getBaseValueFrom v scssDocument
    else v.value
  let color := if strTruthy value then H.isColor (value.getD "") else none
  let completionKind :=
    if strTruthy color then CompletionItemKind.color
    else CompletionItemKind.variable
  let documentation0 :=
    H.getLimitedString ((jsOr color (jsOr value (some ""))).getD "")
  let detail0 := "Variable declared in " ++ scssDocument.fileName
  let afterFilters : Option (String × Option String × String) :=
    -- source: `if (variable.mixin)` — JavaScript truthiness, so an absent
    -- mixin reference and the empty string both fall into the else branch
    if strTruthy v.mixin then
      -- 'argument from MIXIN_NAME' suffix when the variable is a mixin argument
      some ("Argument from " ++ v.mixin.getD "" ++ ", " ++ detail0.toLower,
        none, documentation0)
    else
      let isPrivate := rePrivateTest v.name
      let isFromCurrentDocument := scssDocument.uri == currentDocument.uri
      if isPrivate && !isFromCurrentDocument then none
      else if hiddenSymbols.contains v.name then none
      else
        -- source: `sortText = label.replace(/^$[_-]/, "")`; the pattern
        -- `^$[_-]` (unescaped `$`) matches no string, so the replacement is
        -- the identity on the label
        let sortText := if isPrivate then some v.name else none
        let sassdoc := H.applySassDoc v
        let documentation :=
          if strTruthy (some sassdoc) then documentation0 ++ "\n\n" ++ sassdoc
          else documentation0
        some (detail0, sortText, documentation)
  match afterFilters with
  | none => none
  | some (detail, sortText, documentation) =>
    let isEmbedded := !(context.originalExtension == "scss")
    let label := v.name
    -- source: `if (context.namespace)` — JavaScript truthiness again: an
    -- absent namespace and the empty string both skip the prefixed-label
    -- branch
    if strTruthy context.nsp then
      let label := "$" ++ prefixText ++ asDollarlessVariable v.name
      let insertText :=
        if strEndsWith context.word "." then
          (if isEmbedded then "" else ".") ++ label
        else if isEmbedded then asDollarlessVariable label
        else label
      let filterText :=
        if strEndsWith context.word "." then context.nsp.getD "" ++ "." ++ label
        else label
      some ⟨label, some filterText, some insertText, sortText, completionKind,
        detail, (v.sassdoc.map SassDocMeta.deprecated).getD false,
        documentation⟩
    else
      let insertText :=
        if isEmbedded then some (asDollarlessVariable label) else none
      some ⟨label, none, insertText, sortText, completionKind, detail,
        (v.sassdoc.map SassDocMeta.deprecated).getD false,
        documentation⟩

/-- `createVariableCompletionItems` from `variable-completion.ts`: one item
per variable of the document's variable map, minus those skipped by the
privacy and hidden-symbol filters. -/
def createVariableCompletionItems (H : CompletionHelpers)
    (scssDocument : IScssDocument) (currentDocument : TextDocument)
    (context : CompletionContext) (hiddenSymbols : List String)
    (prefixText : String) : List CompletionItem :=
  scssDocument.vars.filterMap
    (variableCompletionItem H scssDocument currentDocument context
      hiddenSymbols prefixText)

/-! ## Document Store and the diagnostics publishing guard -/

/-- Modelled from the spec: the Document Store (`StorageService`, not among
the given sources) is an in-memory map from canonical URI to a record; `set`
wholesale-replaces the record for a key. -/
def storageSet {α : Type} (s : List (String × α)) (uri : String) (rec : α) :
    List (String × α) :=
  (uri, rec) :: s.filter (fun p => !(p.1 == uri))

def storageGet {α : Type} (s : List (String × α)) (uri : String) : Option α :=
  s.lookup uri

def storageDelete {α : Type} (s : List (String × α)) (uri : String) :
    List (String × α) :=
  s.filter (fun p => !(p.1 == uri))

structure PublishParams where
  uri : String
  diagnostics : List String
deriving DecidableEq, Repr

/-- The publishing boundary of `SomeSassServer.listen`'s `onDidChangeContent`
handler (`part_000`, lines 129–141): after `update` completes and diagnostics
are computed, the handler looks up the latest known document for the URI and
sends the diagnostics only when its version still equals the version the
diagnostics were computed for. -/
def publishAfterUpdate (documents : String → Option TextDocument)
    (changeDoc : TextDocument) (diagnostics : List String) :
    Option PublishParams :=
  match documents changeDoc.uri with
  | some latestTextDocument =>
    if latestTextDocument.version == changeDoc.version then
      some ⟨latestTextDocument.uri, diagnostics⟩
    else none
  | none => none

/-! ## Link & Symbol Extractor (modelled from the spec, §4.2)

The extractor implementation (`parseDocument` and its helpers in
`src/server/parser`) is not among the given sources — only its tests are.
The definitions below model it from the specification: an explicit scanner
over characters that tracks quote and bracket depth, a single at-rule
recogniser for use/forward/import, and symbol extraction for variables,
mixins and functions. -/

def dropSpaces : List Char → List Char
  | [] => []
  | c :: rest => if isSpaceChar c then dropSpaces rest else c :: rest

/-- Take characters up to (excluding) the first occurrence of `stop`;
`none` when `stop` does not occur. -/
def takeUntilChar (stop : Char) : List Char → Option (List Char × List Char)
  | [] => none
  | c :: rest =>
    if c == stop then some ([], rest)
    else
      match takeUntilChar stop rest with
      | none => none
      | some (a, b) => some (c :: a, b)

/-- Parse a quoted module reference (either quote style), returning the text
between the quotes and the remainder. -/
def parseQuoted (cs : List Char) : Option (String × List Char) :=
  match dropSpaces cs with
  | '"' :: rest => (takeUntilChar '"' rest).map (fun p => (String.mk p.1, p.2))
  | '\'' :: rest => (takeUntilChar '\'' rest).map (fun p => (String.mk p.1, p.2))
  | _ => none

/-- Split on top-level commas, tracking quote state and bracket depth, so
that default values containing nested parentheses/commas/strings survive. -/
def splitTopAux (cs : List Char) (depth : Nat) (quoteState : Option Char)
    (acc : List Char) : List (List Char) :=
  match cs with
  | [] => [acc.reverse]
  | c :: rest =>
    match quoteState with
    | some q =>
      if c == q then splitTopAux rest depth none (c :: acc)
      else splitTopAux rest depth (some q) (c :: acc)
    | none =>
      if c == '"' || c == '\'' then splitTopAux rest depth (some c) (c :: acc)
      else if c == '(' || c == '[' then splitTopAux rest (depth + 1) none (c :: acc)
      else if c == ')' || c == ']' then splitTopAux rest (depth - 1) none (c :: acc)
      else if c == ',' && depth == 0 then acc.reverse :: splitTopAux rest 0 none []
      else splitTopAux rest depth none (c :: acc)

/-- Split at the first top-level `:` (outside quotes and brackets).
`none` when there is no top-level colon. -/
def splitTopColon (cs : List Char) (depth : Nat) (quoteState : Option Char) :
    Option (List Char × List Char) :=
  match cs with
  | [] => none
  | c :: rest =>
    match quoteState with
    | some q =>
      (splitTopColon rest depth (if c == q then none else some q)).map
        (fun p => (c :: p.1, p.2))
    | none =>
      if c == ':' && depth == 0 then some ([], rest)
      else
        let st : Nat × Option Char :=
          if c == '"' || c == '\'' then (depth, some c)
          else if c == '(' || c == '[' then (depth + 1, none)
          else if c == ')' || c == ']' then (depth - 1, none)
          else (depth, none)
        (splitTopColon rest st.1 st.2).map (fun p => (c :: p.1, p.2))

/-- Take the contents of a parenthesised group up to the matching close
parenthesis, quote-aware (the opening parenthesis is already consumed). -/
def takeBalanced (cs : List Char) (depth : Nat) (quoteState : Option Char) :
    List Char :=
  match cs with
  | [] => []
  | c :: rest =>
    match quoteState with
    | some q => c :: takeBalanced rest depth (if c == q then none else some q)
    | none =>
      if c == ')' then
        if depth == 0 then [] else c :: takeBalanced rest (depth - 1) none
      else if c == '(' then c :: takeBalanced rest (depth + 1) none
      else if c == '"' || c == '\'' then c :: takeBalanced rest depth (some c)
      else c :: takeBalanced rest depth none

structure ScssParameter where
  name : String
  value : Option String
deriving DecidableEq, Repr

/-- A single parameter: an optional default expression after a top-level
colon.  A parameter with no default gets `none`, never `some ""`. -/
def parseParam (cs : List Char) : ScssParameter :=
  match splitTopColon cs 0 none with
  | none => ⟨strTrim (String.mk cs), none⟩
  | some (n, v) => ⟨strTrim (String.mk n), some (strTrim (String.mk v))⟩

def parseParamList (cs : List Char) : List ScssParameter :=
  if strTrim (String.mk cs) == "" then []
  else (splitTopAux cs 0 none []).map parseParam

/-- A mixin or function symbol: name and ordered parameter list. -/
structure MixinSym where
  name : String
  parameters : List ScssParameter
deriving DecidableEq, Repr

/-- Parse a mixin/function declaration after its at-rule keyword. -/
def parseCallable (cs0 : List Char) : MixinSym :=
  let cs := dropSpaces cs0
  let nameChars :=
    cs.takeWhile (fun c => !(c == '(' || c == ' ' || c == '\t' || c == '{'))
  let rest := dropSpaces (cs.drop nameChars.length)
  match rest with
  | '(' :: inner => ⟨String.mk nameChars, parseParamList (takeBalanced inner 0 none)⟩
  | _ => ⟨String.mk nameChars, []⟩

structure VariableSym where
  name : String
  value : Option String
deriving DecidableEq, Repr

def parseVarDecl (cs : List Char) : Option VariableSym :=
  match splitTopColon cs 0 none with
  | none => none
  | some (n, v) =>
    some ⟨strTrim (String.mk n),
      some (strTrim (String.mk (v.takeWhile (fun c => !(c == ';')))))⟩

/-- A use link: raw reference, resolved target (nullable), namespace
(explicit alias, derived default, or the wildcard marker `*`), aliased
flag.  `nsp` embeds the source field `namespace`, a Lean keyword. -/
structure UseLink where
  link : String
  target : Option String
  nsp : String
  isAliased : Bool
deriving DecidableEq, Repr

/-- A forward link: raw reference, resolved target (nullable), prefix
string, hidden names, shown names.  `prefixText` embeds the source field
named after the prefix modifier. -/
structure ForwardLink where
  link : String
  target : Option String
  prefixText : String
  hide : List String
  shown : List String
deriving DecidableEq, Repr

structure ImportLink where
  link : String
  target : Option String
deriving DecidableEq, Repr

def stripTilde (s : String) : String :=
  if strStartsWith s "~" then strDrop s 1 else s

def stripExt (s : String) : String :=
  if strEndsWith s ".scss" || strEndsWith s ".sass" then
    String.mk (s.data.take (s.data.length - 5))
  else s

def stripUnderscoreMark (s : String) : String :=
  if strStartsWith s "_" then strDrop s 1 else s

def lastSegment (p : String) : String := (strSplit p '/').getLastD ""

/-- Default namespace of a `@use` without alias: the target's base filename
with any extension and privacy-marker prefix stripped. -/
def defaultNamespace (url : String) : String :=
  stripUnderscoreMark (stripExt (lastSegment (stripTilde url)))

/-- Parse a `@use` statement tail (after the keyword): the quoted reference
and an optional `as` clause (explicit namespace or wildcard). -/
def parseUseTail (cs : List Char) : Option (String × String × Bool) :=
  match parseQuoted cs with
  | none => none
  | some (url, rest) =>
    match dropSpaces rest with
    | 'a' :: 's' :: rest2 =>
      let tok :=
        (dropSpaces rest2).takeWhile (fun c => !(c == ';' || c == ' ' || c == '\t'))
      some (url, String.mk tok, true)
    | _ => some (url, defaultNamespace url, false)

def parseNameList (cs : List Char) : List String :=
  ((splitOnChar ',' (cs.takeWhile (fun c => !(c == ';')))).map
    (fun seg => strTrim (String.mk seg))).filter (fun s => !(s == ""))

/-- Parse a `@forward` statement tail: quoted reference, optional
`as <prefix>-*` clause, optional `hide`/`show` name list. -/
def parseForwardTail (cs : List Char) :
    Option (String × String × List String × List String) :=
  match parseQuoted cs with
  | none => none
  | some (url, rest) =>
    let rest1 := dropSpaces rest
    let st :=
      match rest1 with
      | 'a' :: 's' :: r =>
        let afterAs := dropSpaces r
        let tok :=
          afterAs.takeWhile (fun c => !(c == ';' || c == ' ' || c == '\t'))
        (String.mk (tok.takeWhile (fun c => !(c == '*'))),
          dropSpaces (afterAs.drop tok.length))
      | _ => ("", rest1)
    match st.2 with
    | 'h' :: 'i' :: 'd' :: 'e' :: r =>
      some (url, st.1, parseNameList (dropSpaces r), [])
    | 's' :: 'h' :: 'o' :: 'w' :: r =>
      some (url, st.1, [], parseNameList (dropSpaces r))
    | _ => some (url, st.1, [], [])

/-! ## File system and Path Resolver (modelled from the spec, §4.1) -/

inductive FileEntry where
  | ok (content : String)
  | err
deriving DecidableEq, Repr

/-- The file system capability: a finite map from URI to a readable content
or a read failure (`err`); absence means the file does not exist. -/
abbrev FileSys := List (String × FileEntry)

def fsExists (fs : FileSys) (uri : String) : Bool := (fs.lookup uri).isSome

def fsRead (fs : FileSys) (uri : String) : Option String :=
  match fs.lookup uri with
  | some (FileEntry.ok c) => some c
  | _ => none

/-- Accepted stylesheet extensions. -/
def acceptedExt (uri : String) : Bool :=
  strEndsWith uri ".scss" || strEndsWith uri ".sass"

/-- Normalize `.`/`..` path segments. -/
def normSegsAux : List String → List String → List String
  | [], acc => acc.reverse
  | s :: rest, acc =>
    if s == "." then normSegsAux rest acc
    else if s == ".." then normSegsAux rest acc.tail
    else normSegsAux rest (s :: acc)

def dirSegments (uri : String) : List String := (strSplit uri '/').dropLast

/-- Resolve a textual reference relative to the referencing document's own
path (not the workspace root), stripping the node-modules marker and
normalizing relative segments. -/
def joinReference (fromUri ref : String) : String :=
  joinSegs (normSegsAux (dirSegments fromUri ++ strSplit (stripTilde ref) '/') [])

/-- The partial form of a path: a privacy-marker prefix before the final
segment. -/
def underscoreForm (p : String) : String :=
  let segs := strSplit p '/'
  joinSegs (segs.dropLast ++ ["_" ++ segs.getLastD ""])

def firstExisting (fs : FileSys) : List String → Option String
  | [] => none
  | c :: rest => if fsExists fs c then some c else firstExisting fs rest

/-- Modelled from the spec: the Path Resolver (§4.1, not among the given
sources).  If the reference carries a recognized extension, test as-is;
otherwise probe `name.scss`, `name.sass`, the partial forms, then the
directory-index forms, in strict priority order, returning the first
candidate confirmed to exist. -/
def resolveReference (fs : FileSys) (fromUri ref : String) : Option String :=
  let base := joinReference fromUri ref
  if acceptedExt base then
    if fsExists fs base then some base else none
  else
    firstExisting fs
      [base ++ ".scss", base ++ ".sass",
       underscoreForm base ++ ".scss", underscoreForm base ++ ".sass",
       base ++ "/_index.scss", base ++ "/_index.sass",
       base ++ "/index.scss", base ++ "/index.sass"]

/-! ## Document parsing (modelled from the spec, §4.2) -/

inductive LineItem where
  | varDecl (v : VariableSym)
  | mixinDecl (m : MixinSym)
  | funcDecl (f : MixinSym)
  | useDecl (u : UseLink)
  | forwardDecl (f : ForwardLink)
  | importDecl (i : ImportLink)
  | plain
deriving DecidableEq, Repr

/-- Modelled from the spec: one statement of the Link & Symbol Extractor
(§4.2, not among the given sources).  Classifies a source line, resolves a
link target against the owning document's path, and applies the
self-reference guard: a link whose resolved target equals the owning
document's own URI is dropped. -/
def parseLine (fs : FileSys) (docUri : String) (line : String) : LineItem :=
  let t := strTrim line
  let cs := t.data
  if strStartsWith t "@use" then
    match parseUseTail (cs.drop 4) with
    | none => .plain
    | some (url, ns, aliased) =>
      let target := resolveReference fs docUri url
      if target == some docUri then .plain
      else .useDecl ⟨url, target, ns, aliased⟩
  else if strStartsWith t "@forward" then
    match parseForwardTail (cs.drop 8) with
    | none => .plain
    | some (url, pfx, hideL, showL) =>
      let target := resolveReference fs docUri url
      if target == some docUri then .plain
      else .forwardDecl ⟨url, target, pfx, hideL, showL⟩
  else if strStartsWith t "@import" then
    match parseQuoted (cs.drop 7) with
    | none => .plain
    | some (url, _) =>
      let target := resolveReference fs docUri url
      if target == some docUri then .plain
      else .importDecl ⟨url, target⟩
  else if strStartsWith t "@mixin" then .mixinDecl (parseCallable (cs.drop 6))
  else if strStartsWith t "@function" then .funcDecl (parseCallable (cs.drop 9))
  else if strStartsWith t "$" then
    match parseVarDecl cs with
    | none => .plain
    | some v => .varDecl v
  else .plain

/-- One Document Record: declared symbols and module links.  `vars` embeds
the source field `variables`, a Lean keyword. -/
structure DocRecord where
  vars : List VariableSym
  mixins : List MixinSym
  functions : List MixinSym
  uses : List UseLink
  forwards : List ForwardLink
  imports : List ImportLink
deriving DecidableEq, Repr

def emptyRecord : DocRecord := ⟨[], [], [], [], [], []⟩

def collectRecord : List LineItem → DocRecord
  | [] => emptyRecord
  | item :: rest =>
    let r := collectRecord rest
    match item with
    | .varDecl v => { r with vars := v :: r.vars }
    | .mixinDecl m => { r with mixins := m :: r.mixins }
    | .funcDecl f => { r with functions := f :: r.functions }
    | .useDecl u => { r with uses := u :: r.uses }
    | .forwardDecl f => { r with forwards := f :: r.forwards }
    | .importDecl i => { r with imports := i :: r.imports }
    | .plain => r

/-- Modelled from the spec: `parseDocument` (§4.2, not among the given
sources) — parse raw text into declared symbols and module links with their
modifiers, link targets resolved against the owning document. -/
def parseDocument (fs : FileSys) (docUri : String) (text : String) : DocRecord :=
  collectRecord ((strSplit text '\n').map (parseLine fs docUri))

/-! ## Scanner (modelled from the spec, §4.3)

The `ScannerService` implementation is not among the given sources — only
its tests and its caller (`SomeSassServer.listen`) are.  The model below
follows the spec: seed a work queue, silently skip queued URIs that do not
exist or fail the accepted-extension check, read and parse each file,
resolve its links against the referencing document's own path, and enqueue
each newly resolved target absent from both the Store and the queue.  A
read failure on a seed file is propagated as an error; a read failure on a
discovered file is swallowed and traversal continues.  When
import-following (`scanImportedFiles`) is disabled, discovered targets are
recorded on the parsed record but never enqueued.  `readLog` records every
file read, in order. -/

def recordTargets (r : DocRecord) : List String :=
  r.uses.filterMap UseLink.target ++ r.forwards.filterMap ForwardLink.target ++
    r.imports.filterMap ImportLink.target

structure ScanState where
  store : List (String × DocRecord)
  readLog : List String
deriving DecidableEq, Repr

def storeHas (store : List (String × DocRecord)) (uri : String) : Bool :=
  (store.lookup uri).isSome

def queueHas (queue : List (String × Bool)) (uri : String) : Bool :=
  queue.any (fun p => p.1 == uri)

/-- Enqueue each target absent from both the Store and the queue (tagged as
a non-seed). -/
def enqueueNew (store : List (String × DocRecord)) :
    List (String × Bool) → List String → List (String × Bool)
  | q, [] => q
  | q, t :: ts =>
    if storeHas store t || queueHas q t then enqueueNew store q ts
    else enqueueNew store (q ++ [(t, false)]) ts

/-- Modelled from the spec: the Scanner traversal (§4.3).  Queue items carry
a seed flag; fuel makes the recursion structural (`scan` below supplies
enough fuel for the queue to drain, see `scanAux_drains`). -/
def scanAux (fs : FileSys) (follow : Bool) :
    Nat → List (String × Bool) → ScanState → Except String ScanState
  | _, [], st => .ok st
  | 0, _ :: _, st => .ok st
  | fuel + 1, (uri, isSeed) :: rest, st =>
    if storeHas st.store uri then scanAux fs follow fuel rest st
    else if !(fsExists fs uri && acceptedExt uri) then
      scanAux fs follow fuel rest st
    else
      match fsRead fs uri with
      | none =>
        if isSeed then .error ("Failed to read " ++ uri)
        else scanAux fs follow fuel rest { st with readLog := st.readLog ++ [uri] }
      | some content =>
        let record := parseDocument fs uri content
        let store' := st.store ++ [(uri, record)]
        let queue' :=
          if follow then enqueueNew store' rest (recordTargets record) else rest
        scanAux fs follow fuel queue' ⟨store', st.readLog ++ [uri]⟩

def scanFuel (fs : FileSys) (seeds : List String) : Nat :=
  seeds.length + (fs.length + 1) * (fs.length + 1)

/-- Modelled from the spec: `scan(seedURIs)`; `follow` is the
`scanImportedFiles` setting. -/
def scan (fs : FileSys) (follow : Bool) (seeds : List String) :
    Except String ScanState :=
  scanAux fs follow (scanFuel fs seeds) (seeds.map (fun u => (u, true))) ⟨[], []⟩

def storeKeys (store : List (String × DocRecord)) : List String :=
  store.map Prod.fst

/-- The use/forward/import reachability relation of the spec: the closure of
a seed document through the resolved link targets of successfully read
documents. -/
def docTargets (fs : FileSys) (uri : String) : List String :=
  match fsRead fs uri with
  | none => []
  | some content => recordTargets (parseDocument fs uri content)

inductive Reaches (fs : FileSys) (root : String) : String → Prop
  | refl : Reaches fs root root
  | step {u v : String} : Reaches fs root u → v ∈ docTargets fs u →
      Reaches fs root v

/-! ## Symbol Resolution Engine (modelled from the spec, §4.4) -/

/-- Modelled from the spec: the privacy naming convention — a symbol is
private when its name (after the `$` sigil, for variables) starts with the
privacy marker `-` or `_`. -/
def isPrivateName (n : String) : Bool :=
  strStartsWith n "$-" || strStartsWith n "$_" ||
    strStartsWith n "-" || strStartsWith n "_"

/-- A document's own exportable local names: its declared variables, mixins
and functions minus privacy-flagged symbols.  Parameter symbols never enter
this map (they are scoped to their owning signature). -/
def localExports (r : DocRecord) : List String :=
  (r.vars.map VariableSym.name ++ r.mixins.map MixinSym.name ++
    r.functions.map MixinSym.name).filter (fun n => !(isPrivateName n))

/-- One forward hop: drop any name present in the hop's hide set, then
prepend the hop's prefix to every surviving name. -/
def applyForward (f : ForwardLink) (targetExports : List String) : List String :=
  (targetExports.filter (fun n => !(f.hide.contains n))).map
    (fun n => f.prefixText ++ n)

/-- Modelled from the spec: `resolveExports` (§4.4, not among the given
sources) — a document's locals minus private symbols, plus, for each
ForwardLink with a resolved target, the target's export set with the hop's
hide set dropped and its prefix prepended.  The recursive walk carries a
visited-URI set for the current path; revisiting yields an empty
contribution. -/
def resolveExports (store : List (String × DocRecord)) :
    Nat → List String → String → List String
  | 0, _, _ => []
  | fuel + 1, visited, uri =>
    if visited.contains uri then []
    else
      match storageGet store uri with
      | none => []
      | some r =>
        localExports r ++
          (r.forwards.map (fun f =>
            match f.target with
            | none => []
            | some t => applyForward f (resolveExports store fuel (uri :: visited) t))).flatten

def resolveExportsTop (store : List (String × DocRecord)) (uri : String) :
    List String :=
  resolveExports store (store.length + 1) [] uri

/-! ## Measures for the Scanner traversal

`K` bounds the number of distinct file URIs; `unstoredCount` counts the
distinct file URIs not yet in the Store.  `queue.length + (K + 1) *
unstoredCount` strictly decreases at every `scanAux` step, which is how the
fuel supplied by `scan` is shown to drain the queue. -/

def fsKeys (fs : FileSys) : List String := (fs.map Prod.fst).dedup

def K (fs : FileSys) : Nat := (fsKeys fs).length

def unstoredCount (fs : FileSys) (store : List (String × DocRecord)) : Nat :=
  ((fsKeys fs).filter (fun u => !(storeHas store u))).length

/-! ## Concrete fixtures

The workspaces and stores of the end-to-end scenarios exercised by the
repository's tests and the spec's testable properties. -/

/-- Document A imports `variables.scss`, which exists and declares
`$var: 1px;`. -/
def exampleFs : FileSys :=
  [("/index.scss", FileEntry.ok "@import \"variables.scss\";"),
   ("/variables.scss", FileEntry.ok "$var: 1px;")]

/-- `self.scss` references itself via a self-relative `@use`. -/
def selfText : String := "@use \"./self\";\n$var: 1px;"

def selfFs : FileSys := [("/self.scss", FileEntry.ok selfText)]

/-- A workspace whose only (seed) file fails to read. -/
def seedErrFs : FileSys := [("/index.scss", FileEntry.err)]

/-- A workspace where the seed resolves two links: one target fails to
read, the other succeeds. -/
def discoveredErrFs : FileSys :=
  [("/index.scss", FileEntry.ok "@import \"bad.scss\";\n@import \"good.scss\";"),
   ("/bad.scss", FileEntry.err),
   ("/good.scss", FileEntry.ok "$g: 1;")]

/-- A store where `/doc.scss` forwards `colors` as `color-*` hiding `$a`
and `b`, and colors exports `$a`, `b`, `$c`. -/
def colorsStoreEx : List (String × DocRecord) :=
  [("/doc.scss",
    { emptyRecord with
        forwards := [⟨"colors", some "/colors.scss", "color-", ["$a", "b"], []⟩] }),
   ("/colors.scss",
    { emptyRecord with
        vars := [⟨"$a", some "1"⟩, ⟨"$c", some "2"⟩],
        mixins := [⟨"b", []⟩] })]

/-- The symbol-extraction test input: a variable, a mixin and a function,
each callable with one defaulted and one default-less parameter. -/
def paramsText : String :=
  "$name: \"value\";\n@mixin mixin($a: 1, $b) \x7b\x7d\n@function function($a: 1, $b) \x7b\x7d"

/-- A concrete instance of the abstracted external completion helpers. -/
def trivialHelpers : CompletionHelpers :=
  ⟨fun _ => false, fun _ _ => none, fun _ => none, fun s => s, fun _ => ""⟩

/-- The completion item produced for a plain `$x` variable from the current
document with no namespace in context. -/
def itemEx : CompletionItem :=
  ⟨"$x", none, none, none, CompletionItemKind.variable,
    "Variable declared in a.scss", false, ""⟩

/-- The record the Extractor produces for `paramsText`. -/
def paramsRecord : DocRecord :=
  { emptyRecord with
      vars := [⟨"$name", some "\"value\""⟩],
      mixins := [⟨"mixin", [⟨"$a", some "1"⟩, ⟨"$b", none⟩]⟩],
      functions := [⟨"function", [⟨"$a", some "1"⟩, ⟨"$b", none⟩]⟩] }

/-! # Theorems -/

/-- C5: a privacy-flagged (private-named) variable without an owning mixin
is excluded from completion when the consuming document differs from the
declaring document, but the same symbol is produced when consumer and
declarer are the same document (with the default empty hidden-symbol
list). -/
theorem private_variable_scope (H : CompletionHelpers)
    (d : IScssDocument) (cur : TextDocument) (context : CompletionContext)
    (prefixText : String) (v : ScssVariable)
    (hmix : v.mixin = none) (hpriv : rePrivateTest v.name = true) :
    (d.uri ≠ cur.uri →
      variableCompletionItem H d cur context [] prefixText v = none) ∧
    (d.uri = cur.uri →
      (variableCompletionItem H d cur context [] prefixText v).isSome = true) := by
  constructor
  · intro hne
    simp [variableCompletionItem, strTruthy, hmix, hpriv, hne]
  · intro heq
    simp only [variableCompletionItem, strTruthy, hmix, hpriv, heq]
    simp only [Bool.false_eq_true, if_false, beq_self_eq_true, Bool.not_true,
      Bool.and_false, List.contains_nil]
    split <;> rfl

/-- Witness for C5 at a concrete private variable `$-p`. -/
theorem private_variable_scope_witness :
    rePrivateTest "$-p" = true ∧
    variableCompletionItem trivialHelpers ⟨"/a.scss", "a.scss", []⟩
      ⟨"/b.scss", 0⟩ ⟨none, "", "scss"⟩ [] "" ⟨"$-p", none, none, none⟩ = none ∧
    (variableCompletionItem trivialHelpers ⟨"/a.scss", "a.scss", []⟩
      ⟨"/a.scss", 0⟩ ⟨none, "", "scss"⟩ [] "" ⟨"$-p", none, none, none⟩).isSome = true :=
  ⟨by decide,
   (private_variable_scope trivialHelpers ⟨"/a.scss", "a.scss", []⟩ ⟨"/b.scss", 0⟩
      ⟨none, "", "scss"⟩ "" ⟨"$-p", none, none, none⟩ rfl (by decide)).1 (by decide),
   (private_variable_scope trivialHelpers ⟨"/a.scss", "a.scss", []⟩ ⟨"/a.scss", 0⟩
      ⟨none, "", "scss"⟩ "" ⟨"$-p", none, none, none⟩ rfl (by decide)).2 rfl⟩

/-- C9 (amended): a variable whose owning-mixin reference is set *and
non-empty* (truthy in the source's `if (variable.mixin)`) bypasses both the
privacy filter and the hidden-symbols filter: an item is produced for any
privacy status, any consuming document, and any hidden-symbol list.  As
originally stated — with `variable.mixin` merely set — the claim fails at
the falsy empty string, see `mixin_empty_string_not_exempt`. -/
theorem mixin_argument_bypasses_filters (H : CompletionHelpers)
    (d : IScssDocument) (cur : TextDocument) (context : CompletionContext)
    (hiddenSymbols : List String) (prefixText : String) (v : ScssVariable)
    (m : String) (hmix : v.mixin = some m) (hm : ¬(m = "")) :
    (variableCompletionItem H d cur context hiddenSymbols prefixText v).isSome =
      true := by
  have ht : strTruthy v.mixin = true := by simp [strTruthy, hmix, hm]
  simp only [variableCompletionItem, ht, if_true]
  split <;> rfl

/-- Counterexample to C9 as stated: the source guards the mixin-argument
branch with JavaScript truthiness, so a variable whose owning-mixin
reference is the empty string is not exempt — the privacy filter applies
and no completion item is produced although `mixin` is set. -/
theorem mixin_empty_string_not_exempt :
    (⟨"$-p", none, some "", none⟩ : ScssVariable).mixin ≠ none ∧
    rePrivateTest "$-p" = true ∧
    variableCompletionItem trivialHelpers ⟨"/a.scss", "a.scss", []⟩
      ⟨"/b.scss", 0⟩ ⟨none, "", "scss"⟩ [] ""
      ⟨"$-p", none, some "", none⟩ = none :=
  ⟨by decide, by decide, by decide⟩

/-- Witness for C9: an item is produced for a mixin argument even though
its name is private, hidden, and from another document. -/
theorem mixin_argument_bypasses_filters_witness :
    rePrivateTest "$-p" = true ∧ "$-p" ∈ ["$-p"] ∧
    ("/a.scss" : String) ≠ "/b.scss" ∧
    (variableCompletionItem trivialHelpers ⟨"/a.scss", "a.scss", []⟩
      ⟨"/b.scss", 0⟩ ⟨none, "", "scss"⟩ ["$-p"] ""
      ⟨"$-p", none, some "m", none⟩).isSome = true :=
  ⟨by decide, by decide, by decide,
   mixin_argument_bypasses_filters trivialHelpers ⟨"/a.scss", "a.scss", []⟩
     ⟨"/b.scss", 0⟩ ⟨none, "", "scss"⟩ ["$-p"] ""
     ⟨"$-p", none, some "m", none⟩ "m" rfl (by decide)⟩

/-- C10: without a namespace in the completion context, the forward prefix
is not applied — a produced item's label is the variable's original
declared name, whatever the prefix argument. -/
theorem prefix_inert_without_namespace (H : CompletionHelpers)
    (d : IScssDocument) (cur : TextDocument) (context : CompletionContext)
    (hiddenSymbols : List String) (prefixText : String) (v : ScssVariable)
    (item : CompletionItem) (hns : context.nsp = none)
    (h : variableCompletionItem H d cur context hiddenSymbols prefixText v =
      some item) :
    item.label = v.name := by
  simp only [variableCompletionItem, hns, strTruthy, Bool.false_eq_true,
    if_false] at h
  split at h
  · exact absurd h (by simp)
  · split at h <;> (injection h with h; subst h; rfl)

/-- Witness for C10 at a concrete variable and non-empty prefix. -/
theorem prefix_inert_without_namespace_witness :
    (variableCompletionItem trivialHelpers ⟨"/a.scss", "a.scss", []⟩
      ⟨"/a.scss", 0⟩ ⟨none, "", "scss"⟩ [] "pfx-" ⟨"$x", none, none, none⟩ =
      some itemEx) ∧ itemEx.label = "$x" :=
  ⟨by decide,
   prefix_inert_without_namespace trivialHelpers ⟨"/a.scss", "a.scss", []⟩
     ⟨"/a.scss", 0⟩ ⟨none, "", "scss"⟩ [] "pfx-" ⟨"$x", none, none, none⟩
     itemEx rfl (by decide)⟩

/-- C8: at the publishing boundary of `onDidChangeContent`, diagnostics are
published only when the changed document's version still equals the latest
known version for that URI; and the Store reflects latest-write-wins per
URI (a `set` wholesale-replaces the record). -/
theorem stale_update_never_published (documents : String → Option TextDocument)
    (changeDoc : TextDocument) (diags : List String) (p : PublishParams)
    (h : publishAfterUpdate documents changeDoc diags = some p) :
    (∃ latest, documents changeDoc.uri = some latest ∧
      latest.version = changeDoc.version ∧ p = ⟨latest.uri, diags⟩) ∧
    (∀ (store : List (String × DocRecord)) (uri : String) (rec : DocRecord),
      storageGet (storageSet store uri rec) uri = some rec) := by
  constructor
  · unfold publishAfterUpdate at h
    split at h
    · rename_i latest hl
      split at h
      · rename_i hv
        exact ⟨latest, hl, by simpa using hv, by simpa using h.symm⟩
      · exact absurd h (by simp)
    · exact absurd h (by simp)
  · intro store uri rec
    simp [storageGet, storageSet, List.lookup]

/-- Witness for C8: a publish that goes through at a matching version. -/
theorem stale_update_never_published_witness :
    publishAfterUpdate (fun _ => some ⟨"/a.scss", 3⟩) ⟨"/a.scss", 3⟩ ["d"] =
      some ⟨"/a.scss", ["d"]⟩ ∧
    (∃ latest, (fun (_ : String) => some (⟨"/a.scss", 3⟩ : TextDocument)) "/a.scss" =
        some latest ∧ latest.version = 3 ∧
        (⟨"/a.scss", ["d"]⟩ : PublishParams) = ⟨latest.uri, ["d"]⟩) ∧
    (∀ (store : List (String × DocRecord)) (uri : String) (rec : DocRecord),
      storageGet (storageSet store uri rec) uri = some rec) :=
  ⟨by decide,
   (stale_update_never_published (fun _ => some ⟨"/a.scss", 3⟩) ⟨"/a.scss", 3⟩
      ["d"] ⟨"/a.scss", ["d"]⟩ (by decide)).1,
   (stale_update_never_published (fun _ => some ⟨"/a.scss", 3⟩) ⟨"/a.scss", 3⟩
      ["d"] ⟨"/a.scss", ["d"]⟩ (by decide)).2⟩

/-- C6: a parameter without a top-level default clause gets `none` (never
`some ""`), a parameter with a default keeps the default's raw text, and
on the symbol-extraction test input the parsed parameters appear in
declaration order with exactly these values. -/
theorem parameter_default_null (cs cs2 : List Char) (n d : List Char)
    (hnone : splitTopColon cs 0 none = none)
    (hsome : splitTopColon cs2 0 none = some (n, d)) :
    (parseParam cs).value = none ∧
    (parseParam cs2).value = some (strTrim (String.mk d)) ∧
    parseDocument [] "/doc.scss" paramsText = paramsRecord := by
  refine ⟨?_, ?_, ?_⟩
  · simp [parseParam, hnone]
  · simp [parseParam, hsome]
  · decide

/-- Witness for C6 at the parameters `$b` (no default) and `$a: 1`. -/
theorem parameter_default_null_witness :
    splitTopColon "$b".data 0 none = none ∧
    splitTopColon "$a: 1".data 0 none = some ("$a".data, " 1".data) ∧
    (parseParam "$b".data).value = none ∧
    (parseParam "$a: 1".data).value = some "1" ∧
    parseDocument [] "/doc.scss" paramsText = paramsRecord := by
  have h := parameter_default_null "$b".data "$a: 1".data "$a".data " 1".data
    (by decide) (by decide)
  exact ⟨by decide, by decide, h.1, by rw [h.2.1]; decide, h.2.2⟩

theorem mem_collect_uses {items : List LineItem} {u : UseLink} :
    u ∈ (collectRecord items).uses ↔ LineItem.useDecl u ∈ items := by
  induction items with
  | nil => simp [collectRecord, emptyRecord]
  | cons it rest ih => cases it <;> simp [collectRecord, ih]

theorem mem_collect_forwards {items : List LineItem} {f : ForwardLink} :
    f ∈ (collectRecord items).forwards ↔ LineItem.forwardDecl f ∈ items := by
  induction items with
  | nil => simp [collectRecord, emptyRecord]
  | cons it rest ih => cases it <;> simp [collectRecord, ih]

theorem mem_collect_imports {items : List LineItem} {i : ImportLink} :
    i ∈ (collectRecord items).imports ↔ LineItem.importDecl i ∈ items := by
  induction items with
  | nil => simp [collectRecord, emptyRecord]
  | cons it rest ih => cases it <;> simp [collectRecord, ih]

theorem parseLine_useDecl {fs : FileSys} {d line : String} {u : UseLink}
    (h : parseLine fs d line = LineItem.useDecl u) :
    (∃ url, u.target = resolveReference fs d url) ∧ u.target ≠ some d := by
  simp only [parseLine] at h
  repeat' split at h
  all_goals cases h
  all_goals refine ⟨⟨_, rfl⟩, ?_⟩
  all_goals simp_all

theorem parseLine_forwardDecl {fs : FileSys} {d line : String} {f : ForwardLink}
    (h : parseLine fs d line = LineItem.forwardDecl f) :
    (∃ url, f.target = resolveReference fs d url) ∧ f.target ≠ some d := by
  simp only [parseLine] at h
  repeat' split at h
  all_goals cases h
  all_goals refine ⟨⟨_, rfl⟩, ?_⟩
  all_goals simp_all

theorem parseLine_importDecl {fs : FileSys} {d line : String} {i : ImportLink}
    (h : parseLine fs d line = LineItem.importDecl i) :
    (∃ url, i.target = resolveReference fs d url) ∧ i.target ≠ some d := by
  simp only [parseLine] at h
  repeat' split at h
  all_goals cases h
  all_goals refine ⟨⟨_, rfl⟩, ?_⟩
  all_goals simp_all

/-- C3: no link whose resolved target equals the owning document's own URI
is ever inserted into that document's uses, forwards, or imports; in
particular a self-relative `@use "./self";` inside `self.scss` yields zero
use links while the local variable is still extracted. -/
theorem no_self_reference_links (fs : FileSys) (docUri text : String) :
    (∀ u ∈ (parseDocument fs docUri text).uses, u.target ≠ some docUri) ∧
    (∀ f ∈ (parseDocument fs docUri text).forwards, f.target ≠ some docUri) ∧
    (∀ i ∈ (parseDocument fs docUri text).imports, i.target ≠ some docUri) ∧
    (parseDocument selfFs "/self.scss" selfText).uses = [] ∧
    (parseDocument selfFs "/self.scss" selfText).vars.length = 1 := by
  refine ⟨?_, ?_, ?_, by decide, by decide⟩
  · intro u hu
    rcases List.mem_map.mp (mem_collect_uses.mp hu) with ⟨line, -, hline⟩
    exact (parseLine_useDecl hline).2
  · intro f hf
    rcases List.mem_map.mp (mem_collect_forwards.mp hf) with ⟨line, -, hline⟩
    exact (parseLine_forwardDecl hline).2
  · intro i hi
    rcases List.mem_map.mp (mem_collect_imports.mp hi) with ⟨line, -, hline⟩
    exact (parseLine_importDecl hline).2

theorem strAppend_left_cancel {a x y : String} (h : a ++ x = a ++ y) : x = y := by
  cases a with
  | mk ad =>
    cases x with
    | mk xd =>
      cases y with
      | mk yd =>
        have hd : ad ++ xd = ad ++ yd := congrArg String.data h
        exact congrArg String.mk (List.append_cancel_left hd)

/-- C2: a name in a ForwardLink's hide set is never exposed through that
forward, whether or not it exists in the target — it is dropped before the
hop's prefix is prepended; and the export set of a document forwarding
`colors` as `color-*` hiding `$a, b`, where colors exports `$a`, `b`,
`$c`, is exactly `color-$c`. -/
theorem forward_hide_never_exposed (f : ForwardLink)
    (targetExports : List String) (n : String) (h : n ∈ f.hide) :
    (f.prefixText ++ n) ∉ applyForward f targetExports ∧
    resolveExportsTop colorsStoreEx "/doc.scss" = ["color-$c"] := by
  constructor
  · intro hmem
    unfold applyForward at hmem
    rcases List.mem_map.mp hmem with ⟨x, hx, hxe⟩
    have hxn : x = n := strAppend_left_cancel hxe
    subst hxn
    rcases List.mem_filter.mp hx with ⟨-, hnot⟩
    simp at hnot
    exact hnot h
  · decide

/-- Witness for C2: hiding `$a` on the colors forward. -/
theorem forward_hide_never_exposed_witness :
    ("$a" ∈ (["$a", "b"] : List String)) ∧
    ("color-" ++ "$a") ∉
      applyForward ⟨"colors", some "/colors.scss", "color-", ["$a", "b"], []⟩
        ["$a", "$c", "b"] ∧
    resolveExportsTop colorsStoreEx "/doc.scss" = ["color-$c"] :=
  ⟨by decide,
   (forward_hide_never_exposed
     ⟨"colors", some "/colors.scss", "color-", ["$a", "b"], []⟩
     ["$a", "$c", "b"] "$a" (by decide)).1,
   (forward_hide_never_exposed
     ⟨"colors", some "/colors.scss", "color-", ["$a", "b"], []⟩
     ["$a", "$c", "b"] "$a" (by decide)).2⟩

/-! ### Scanner lemmas -/

theorem lookup_append {α : Type} (l₁ l₂ : List (String × α)) (u : String) :
    (l₁ ++ l₂).lookup u =
      match l₁.lookup u with
      | some v => some v
      | none => l₂.lookup u := by
  induction l₁ with
  | nil => simp [List.lookup]
  | cons p rest ih =>
    cases hp : (u == p.1) <;> simp [List.lookup, hp, ih]

theorem storeHas_append (s : List (String × DocRecord)) (u x : String)
    (r : DocRecord) :
    storeHas (s ++ [(u, r)]) x = (storeHas s x || x == u) := by
  unfold storeHas
  rw [lookup_append]
  cases hl : s.lookup x with
  | none => cases hxu : (x == u) <;> simp [List.lookup, hxu]
  | some v => simp

/-- The Scanner with import-following disabled processes exactly the queued
documents: each is read and parsed once, in order, and nothing else enters
the Store. -/
theorem scanAux_nofollow (fs : FileSys) :
    ∀ (queue : List (String × Bool)) (fuel : Nat) (st : ScanState),
    queue.length ≤ fuel →
    (∀ q ∈ queue, storeHas st.store q.1 = false ∧ fsExists fs q.1 = true ∧
      acceptedExt q.1 = true ∧ fsRead fs q.1 ≠ none) →
    (queue.map Prod.fst).Nodup →
    ∃ st', scanAux fs false fuel queue st = .ok st' ∧
      st'.store = st.store ++ queue.map
        (fun q => (q.1, parseDocument fs q.1 ((fsRead fs q.1).getD ""))) ∧
      st'.readLog = st.readLog ++ queue.map Prod.fst := by
  intro queue
  induction queue with
  | nil =>
    intro fuel st _ _ _
    exact ⟨st, by cases fuel <;> simp [scanAux], by simp, by simp⟩
  | cons q rest ih =>
    intro fuel st hfuel hq hnd
    cases fuel with
    | zero => exact absurd hfuel (by simp)
    | succ fuel =>
      obtain ⟨uri, isSeed⟩ := q
      obtain ⟨hs, hex, hext, hread⟩ := hq _ (List.mem_cons_self _ _)
      obtain ⟨content, hc⟩ := Option.ne_none_iff_exists'.mp hread
      have hrec := ih fuel
        ⟨st.store ++ [(uri, parseDocument fs uri content)],
          st.readLog ++ [uri]⟩
        (by simpa using Nat.le_of_succ_le_succ hfuel)
        (by
          intro p hp
          obtain ⟨hs', hex', hext', hread'⟩ := hq p (List.mem_cons_of_mem _ hp)
          refine ⟨?_, hex', hext', hread'⟩
          rw [storeHas_append, hs']
          have hmem : p.1 ∈ rest.map Prod.fst := List.mem_map_of_mem _ hp
          have hne : uri ≠ p.1 := by
            intro he
            exact (List.nodup_cons.mp (by simpa using hnd)).1 (he ▸ hmem)
          simp only [Bool.false_or, beq_eq_false_iff_ne, ne_eq]
          exact fun he => hne he.symm)
        (List.nodup_cons.mp (by simpa using hnd)).2
      obtain ⟨st', hrun, hstore, hlog⟩ := hrec
      refine ⟨st', ?_, ?_, ?_⟩
      · simp only [scanAux, hs, Bool.false_eq_true, if_false, hex, hext,
          Bool.and_self, Bool.not_true, hc]
        exact hrun
      · rw [hstore]
        simp [hc]
      · rw [hlog]
        simp

/-- C4: with import-following disabled, `scan` leaves the Store containing
only the seed documents — each seed's parsed record (with its resolved
links) and nothing else, and only the seeds are read; concretely, scanning
A (which imports an existing `variables.scss`) stores and reads only A,
while A's record carries the resolved import link. -/
theorem scan_no_follow (fs : FileSys) (seeds : List String)
    (hseeds : ∀ s ∈ seeds, fsExists fs s = true ∧ acceptedExt s = true ∧
      fsRead fs s ≠ none)
    (hnd : seeds.Nodup) :
    (∃ st, scan fs false seeds = .ok st ∧
      st.store = seeds.map
        (fun s => (s, parseDocument fs s ((fsRead fs s).getD ""))) ∧
      st.readLog = seeds) ∧
    (∃ st2, scan exampleFs false ["/index.scss"] = .ok st2 ∧
      storeKeys st2.store = ["/index.scss"] ∧
      st2.readLog = ["/index.scss"] ∧
      storageGet st2.store "/index.scss" =
        some (parseDocument exampleFs "/index.scss"
          "@import \"variables.scss\";") ∧
      (parseDocument exampleFs "/index.scss"
        "@import \"variables.scss\";").imports =
        [⟨"variables.scss", some "/variables.scss"⟩] ∧
      fsExists exampleFs "/variables.scss" = true) := by
  constructor
  · obtain ⟨st, hrun, hstore, hlog⟩ := scanAux_nofollow fs
      (seeds.map (fun u => (u, true))) (scanFuel fs seeds) ⟨[], []⟩
      (by simp [scanFuel])
      (by
        intro q hq
        rcases List.mem_map.mp hq with ⟨s, hs, rfl⟩
        exact ⟨rfl, (hseeds s hs).1, (hseeds s hs).2.1, (hseeds s hs).2.2⟩)
      (by simpa [List.map_map, Function.comp_def] using hnd)
    refine ⟨st, hrun, ?_, ?_⟩
    · rw [hstore]; simp [List.map_map, Function.comp_def]
    · rw [hlog]; simp [List.map_map, Function.comp_def]
  · exact ⟨_, rfl, by decide, by decide, by decide, by decide, by decide⟩

/-- Witness for C4 via the concrete single-seed example. -/
theorem scan_no_follow_witness :
    (∀ s ∈ ["/index.scss"], fsExists exampleFs s = true ∧
      acceptedExt s = true ∧ fsRead exampleFs s ≠ none) ∧
    (∃ st, scan exampleFs false ["/index.scss"] = .ok st ∧
      st.store = ["/index.scss"].map
        (fun s => (s, parseDocument exampleFs s
          ((fsRead exampleFs s).getD ""))) ∧
      st.readLog = ["/index.scss"]) :=
  ⟨by decide,
   (scan_no_follow exampleFs ["/index.scss"] (by decide) (by decide)).1⟩

theorem enqueueNew_true_mem (store : List (String × DocRecord)) :
    ∀ (ts : List String) (q : List (String × Bool)) (u : String),
    (u, true) ∈ enqueueNew store q ts → (u, true) ∈ q := by
  intro ts
  induction ts with
  | nil => intro q u h; exact h
  | cons t ts ih =>
    intro q u h
    unfold enqueueNew at h
    split at h
    · exact ih q u h
    · have h2 := ih (q ++ [(t, false)]) u h
      rcases List.mem_append.mp h2 with h3 | h3
      · exact h3
      · simp at h3

/-- The Scanner returns an error only for a seed whose read fails: if no
queued seed is an existing, accepted file whose read fails, the traversal
completes with `.ok`. -/
theorem scanAux_no_seed_failure (fs : FileSys) (follow : Bool) :
    ∀ (fuel : Nat) (queue : List (String × Bool)) (st : ScanState),
    (∀ u, (u, true) ∈ queue →
      ¬(fsExists fs u = true ∧ acceptedExt u = true ∧ fsRead fs u = none)) →
    ∃ st', scanAux fs follow fuel queue st = .ok st' := by
  intro fuel
  induction fuel with
  | zero =>
    intro queue st _
    cases queue <;> exact ⟨st, rfl⟩
  | succ fuel ih =>
    intro queue st h
    match queue with
    | [] => exact ⟨st, rfl⟩
    | (uri, isSeed) :: rest =>
      have hrest : ∀ u, (u, true) ∈ rest →
          ¬(fsExists fs u = true ∧ acceptedExt u = true ∧ fsRead fs u = none) :=
        fun u hu => h u (List.mem_cons_of_mem _ hu)
      by_cases h1 : storeHas st.store uri = true
      · obtain ⟨st', hst'⟩ := ih rest st hrest
        exact ⟨st', by simp only [scanAux, h1, if_true]; exact hst'⟩
      · rw [Bool.not_eq_true] at h1
        by_cases h2 : (fsExists fs uri && acceptedExt uri) = true
        · cases hr : fsRead fs uri with
          | none =>
            cases isSeed with
            | true =>
              have hb : fsExists fs uri = true ∧ acceptedExt uri = true := by
                simpa using h2
              exact ((h uri (List.mem_cons_self _ _)) ⟨hb.1, hb.2, hr⟩).elim
            | false =>
              obtain ⟨st', hst'⟩ := ih rest
                { st with readLog := st.readLog ++ [uri] } hrest
              exact ⟨st', by
                simp only [scanAux, h1, Bool.false_eq_true, if_false, h2,
                  Bool.not_true, hr]
                exact hst'⟩
          | some content =>
            set record := parseDocument fs uri content with hrec
            set store' := st.store ++ [(uri, record)] with hstore'
            set queue' :=
              if follow then enqueueNew store' rest (recordTargets record)
              else rest with hqueue'
            have hq' : ∀ u, (u, true) ∈ queue' →
                ¬(fsExists fs u = true ∧ acceptedExt u = true ∧
                  fsRead fs u = none) := by
              intro u hu
              rw [hqueue'] at hu
              cases follow with
              | true =>
                simp only [if_true] at hu
                exact hrest u (enqueueNew_true_mem store' _ rest u hu)
              | false => exact hrest u (by simpa using hu)
            obtain ⟨st', hst'⟩ := ih queue' ⟨store', st.readLog ++ [uri]⟩ hq'
            exact ⟨st', by
              simp only [scanAux, h1, Bool.false_eq_true, if_false, h2,
                Bool.not_true, hr]
              exact hst'⟩
        · obtain ⟨st', hst'⟩ := ih rest st hrest
          refine ⟨st', ?_⟩
          have h2' : (!(fsExists fs uri && acceptedExt uri)) = true := by
            simp [h2]
          simp only [scanAux, h1, Bool.false_eq_true, if_false, h2', if_true]
          exact hst'

/-- C7: a read failure on a seed file is propagated to the caller as an
error; a read failure on a discovered (non-seed) file is swallowed — the
scan still succeeds whenever no seed fails, and concretely a failing
discovered file stays out of the Store while traversal continues to other
discovered files. -/
theorem seed_failure_propagates (fs1 : FileSys) (s : String) (follow1 : Bool)
    (hex : fsExists fs1 s = true) (hext : acceptedExt s = true)
    (herr : fsRead fs1 s = none)
    (fs2 : FileSys) (follow2 : Bool) (seeds : List String)
    (hsafe : ∀ u ∈ seeds,
      ¬(fsExists fs2 u = true ∧ acceptedExt u = true ∧ fsRead fs2 u = none)) :
    scan fs1 follow1 [s] = .error ("Failed to read " ++ s) ∧
    (∃ st, scan fs2 follow2 seeds = .ok st) ∧
    (∃ st2, scan discoveredErrFs true ["/index.scss"] = .ok st2 ∧
      storeKeys st2.store = ["/index.scss", "/good.scss"] ∧
      "/bad.scss" ∉ storeKeys st2.store ∧
      st2.readLog = ["/index.scss", "/bad.scss", "/good.scss"] ∧
      storageGet st2.store "/good.scss" =
        some (parseDocument discoveredErrFs "/good.scss" "$g: 1;")) := by
  refine ⟨?_, ?_, ?_⟩
  · have hk : scanFuel fs1 [s] =
        (fs1.length + 1) * (fs1.length + 1) + 1 := by
      simp [scanFuel, Nat.add_comm]
    unfold scan
    rw [hk]
    have hsh : storeHas (⟨[], []⟩ : ScanState).store s = false := rfl
    simp only [List.map_cons, List.map_nil, scanAux, hsh, Bool.false_eq_true,
      if_false, hex, hext, Bool.and_self, Bool.not_true, herr]
    exact if_pos trivial
  · apply scanAux_no_seed_failure
    intro u hu
    rcases List.mem_map.mp hu with ⟨x, hx, he⟩
    cases he
    exact hsafe _ hx
  · exact ⟨_, rfl, by decide, by decide, by decide, by decide⟩

/-- Witness for C7: the seed-error and discovered-error workspaces. -/
theorem seed_failure_propagates_witness :
    scan seedErrFs true ["/index.scss"] =
      .error ("Failed to read " ++ "/index.scss") ∧
    (∃ st, scan discoveredErrFs true ["/index.scss"] = .ok st) := by
  have h := seed_failure_propagates seedErrFs "/index.scss" true
    (by decide) (by decide) (by decide)
    discoveredErrFs true ["/index.scss"] (by decide)
  exact ⟨h.1, h.2.1⟩

/-! ### Reachability lemmas for the full scan -/

theorem lookup_mem {α : Type} {u : String} {v : α} :
    ∀ {l : List (String × α)}, l.lookup u = some v → (u, v) ∈ l := by
  intro l
  induction l with
  | nil => intro h; exact absurd h (by simp [List.lookup])
  | cons p rest ih =>
    obtain ⟨k, b⟩ := p
    intro h
    cases hp : (u == k) with
    | true =>
      have hb : some b = some v := by simpa [List.lookup, hp] using h
      cases hb
      exact (eq_of_beq hp) ▸ List.mem_cons_self _ _
    | false =>
      exact List.mem_cons_of_mem _ (ih (by simpa [List.lookup, hp] using h))

theorem fsRead_of_ok {fs : FileSys} {u : String}
    (hok : ∀ p ∈ fs, p.2 ≠ FileEntry.err) (hex : fsExists fs u = true) :
    ∃ c, fsRead fs u = some c := by
  unfold fsExists at hex
  rcases Option.isSome_iff_exists.mp hex with ⟨e, he⟩
  cases e with
  | ok c => exact ⟨c, by simp [fsRead, he]⟩
  | err => exact absurd rfl (hok _ (lookup_mem he))

theorem isPrefixOf_extend {p : List Char} (r : List Char) :
    ∀ {l : List Char}, List.isPrefixOf p l = true →
      List.isPrefixOf p (l ++ r) = true := by
  induction p with
  | nil => intro l _; simp [List.isPrefixOf]
  | cons c cs ih =>
    intro l h
    cases l with
    | nil => exact absurd h (by simp [List.isPrefixOf])
    | cons d ds =>
      simp only [List.isPrefixOf, Bool.and_eq_true] at h
      simp only [List.cons_append, List.isPrefixOf, Bool.and_eq_true]
      exact ⟨h.1, ih h.2⟩

theorem strEndsWith_of_endsWith (s : String) {t u : String}
    (h : strEndsWith t u = true) : strEndsWith (s ++ t) u = true := by
  unfold strEndsWith at h ⊢
  have hd : (s ++ t).data = s.data ++ t.data := String.data_append s t
  rw [hd, List.reverse_append]
  exact isPrefixOf_extend _ h

theorem firstExisting_mem (fs : FileSys) :
    ∀ (cands : List String) {t : String}, firstExisting fs cands = some t →
      t ∈ cands ∧ fsExists fs t = true := by
  intro cands
  induction cands with
  | nil => intro t h; cases h
  | cons c rest ih =>
    intro t h
    unfold firstExisting at h
    split at h
    · cases h
      rename_i hc
      exact ⟨List.mem_cons_self _ _, hc⟩
    · obtain ⟨h1, h2⟩ := ih h
      exact ⟨List.mem_cons_of_mem _ h1, h2⟩

theorem resolveReference_good {fs : FileSys} {fromUri ref t : String}
    (h : resolveReference fs fromUri ref = some t) :
    fsExists fs t = true ∧ acceptedExt t = true := by
  simp only [resolveReference] at h
  split at h
  · rename_i hext
    split at h
    · rename_i hex
      cases h
      exact ⟨hex, hext⟩
    · cases h
  · obtain ⟨hmem, hex⟩ := firstExisting_mem fs _ h
    refine ⟨hex, ?_⟩
    have hscss : ∀ x : String, acceptedExt (x ++ ".scss") = true := by
      intro x
      unfold acceptedExt
      rw [strEndsWith_of_endsWith x (t := ".scss") (u := ".scss") (by decide)]
      rfl
    have hsass : ∀ x : String, acceptedExt (x ++ ".sass") = true := by
      intro x
      unfold acceptedExt
      rw [strEndsWith_of_endsWith x (t := ".sass") (u := ".sass") (by decide)]
      simp
    have hidxscss : ∀ (x y : String), strEndsWith y ".scss" = true →
        acceptedExt (x ++ y) = true := by
      intro x y hy
      unfold acceptedExt
      rw [strEndsWith_of_endsWith x hy]
      rfl
    have hidxsass : ∀ (x y : String), strEndsWith y ".sass" = true →
        acceptedExt (x ++ y) = true := by
      intro x y hy
      unfold acceptedExt
      rw [strEndsWith_of_endsWith x hy]
      simp
    simp only [List.mem_cons, List.not_mem_nil, or_false] at hmem
    rcases hmem with rfl | rfl | rfl | rfl | rfl | rfl | rfl | rfl
    · exact hscss _
    · exact hsass _
    · exact hscss _
    · exact hsass _
    · exact hidxscss _ "/_index.scss" (by decide)
    · exact hidxsass _ "/_index.sass" (by decide)
    · exact hidxscss _ "/index.scss" (by decide)
    · exact hidxsass _ "/index.sass" (by decide)

/-- Every resolved target recorded by the Extractor is an existing file
with an accepted extension. -/
theorem recordTargets_good {fs : FileSys} {d text v : String}
    (h : v ∈ recordTargets (parseDocument fs d text)) :
    fsExists fs v = true ∧ acceptedExt v = true := by
  unfold recordTargets at h
  rcases List.mem_append.mp h with h' | h'
  · rcases List.mem_append.mp h' with h2 | h2
    · rcases List.mem_filterMap.mp h2 with ⟨link, hlink, htgt⟩
      rcases List.mem_map.mp (mem_collect_uses.mp hlink) with ⟨line, -, hline⟩
      rcases (parseLine_useDecl hline).1 with ⟨url, hurl⟩
      exact resolveReference_good (hurl ▸ htgt)
    · rcases List.mem_filterMap.mp h2 with ⟨link, hlink, htgt⟩
      rcases List.mem_map.mp (mem_collect_forwards.mp hlink) with ⟨line, -, hline⟩
      rcases (parseLine_forwardDecl hline).1 with ⟨url, hurl⟩
      exact resolveReference_good (hurl ▸ htgt)
  · rcases List.mem_filterMap.mp h' with ⟨link, hlink, htgt⟩
    rcases List.mem_map.mp (mem_collect_imports.mp hlink) with ⟨line, -, hline⟩
    rcases (parseLine_importDecl hline).1 with ⟨url, hurl⟩
    exact resolveReference_good (hurl ▸ htgt)

theorem docTargets_eq {fs : FileSys} {u content : String}
    (h : fsRead fs u = some content) :
    docTargets fs u = recordTargets (parseDocument fs u content) := by
  simp [docTargets, h]

theorem docTargets_good {fs : FileSys} {u v : String}
    (h : v ∈ docTargets fs u) :
    fsExists fs v = true ∧ acceptedExt v = true := by
  unfold docTargets at h
  split at h
  · exact absurd h (by simp)
  · exact recordTargets_good h

theorem queueHas_iff {q : List (String × Bool)} {x : String} :
    queueHas q x = true ↔ x ∈ q.map Prod.fst := by
  unfold queueHas
  rw [List.any_eq_true]
  constructor
  · rintro ⟨p, hp, hbeq⟩
    exact (eq_of_beq hbeq) ▸ List.mem_map_of_mem _ hp
  · intro h
    rcases List.mem_map.mp h with ⟨p, hp, rfl⟩
    exact ⟨p, hp, beq_self_eq_true _⟩

theorem enqueueNew_subset (store : List (String × DocRecord)) :
    ∀ (ts : List String) (q : List (String × Bool)) (x : String × Bool),
    x ∈ q → x ∈ enqueueNew store q ts := by
  intro ts
  induction ts with
  | nil => intro q x hx; exact hx
  | cons t ts ih =>
    intro q x hx
    unfold enqueueNew
    split
    · exact ih q x hx
    · exact ih _ x (List.mem_append_left _ hx)

theorem mem_keys_enqueueNew (store : List (String × DocRecord)) :
    ∀ (ts : List String) (q : List (String × Bool)) (x : String),
    x ∈ (enqueueNew store q ts).map Prod.fst ↔
      x ∈ q.map Prod.fst ∨ (x ∈ ts ∧ storeHas store x = false) := by
  intro ts
  induction ts with
  | nil => simp [enqueueNew]
  | cons t ts ih =>
    intro q x
    unfold enqueueNew
    split
    · rename_i hcond
      rw [ih]
      constructor
      · rintro (h | ⟨h1, h2⟩)
        · exact Or.inl h
        · exact Or.inr ⟨List.mem_cons_of_mem _ h1, h2⟩
      · rintro (h | ⟨h1, h2⟩)
        · exact Or.inl h
        · rcases List.mem_cons.mp h1 with rfl | h1'
          · rcases (by simpa using hcond :
                storeHas store x = true ∨ queueHas q x = true) with hc | hc
            · exact absurd h2 (by simp [hc])
            · exact Or.inl (queueHas_iff.mp hc)
          · exact Or.inr ⟨h1', h2⟩
    · rename_i hcond
      rw [ih]
      have hkeys : (q ++ [(t, false)]).map Prod.fst = q.map Prod.fst ++ [t] := by
        simp
      rw [hkeys]
      have hst : storeHas store t = false := by
        have hcs : ¬(storeHas store t = true ∨ queueHas q t = true) := by
          simpa using hcond
        simp only [not_or, Bool.not_eq_true] at hcs
        exact hcs.1
      constructor
      · rintro (h | ⟨h1, h2⟩)
        · rcases List.mem_append.mp h with h' | h'
          · exact Or.inl h'
          · rcases List.mem_singleton.mp h' with rfl
            exact Or.inr ⟨List.mem_cons_self _ _, hst⟩
        · exact Or.inr ⟨List.mem_cons_of_mem _ h1, h2⟩
      · rintro (h | ⟨h1, h2⟩)
        · exact Or.inl (List.mem_append_left _ h)
        · rcases List.mem_cons.mp h1 with rfl | h1'
          · exact Or.inl (List.mem_append_right _ (List.mem_singleton.mpr rfl))
          · exact Or.inr ⟨h1', h2⟩

theorem nodup_keys_enqueueNew (store : List (String × DocRecord)) :
    ∀ (ts : List String) (q : List (String × Bool)),
    (q.map Prod.fst).Nodup → ((enqueueNew store q ts).map Prod.fst).Nodup := by
  intro ts
  induction ts with
  | nil => intro q h; exact h
  | cons t ts ih =>
    intro q h
    unfold enqueueNew
    split
    · exact ih q h
    · rename_i hcond
      apply ih
      have hkeys : (q ++ [(t, false)]).map Prod.fst = q.map Prod.fst ++ [t] := by
        simp
      rw [hkeys, List.nodup_append]
      refine ⟨h, List.nodup_singleton t, ?_⟩
      intro x hx hx'
      rcases List.mem_singleton.mp hx' with rfl
      have hq : queueHas q x = false := by
        have hcs : ¬(storeHas store x = true ∨ queueHas q x = true) := by
          simpa using hcond
        simp only [not_or, Bool.not_eq_true] at hcs
        exact hcs.2
      exact absurd (queueHas_iff.mpr hx) (by simp [hq])

theorem fsExists_mem_fsKeys {fs : FileSys} {x : String}
    (h : fsExists fs x = true) : x ∈ fsKeys fs := by
  unfold fsExists at h
  rcases Option.isSome_iff_exists.mp h with ⟨e, he⟩
  exact List.mem_dedup.mpr (List.mem_map_of_mem Prod.fst (lookup_mem he))

theorem nodup_subset_length {l l' : List String} (hnd : l.Nodup)
    (hsub : ∀ x ∈ l, x ∈ l') (hnd' : l'.Nodup) : l.length ≤ l'.length := by
  have h1 : l.toFinset.card = l.length := List.toFinset_card_of_nodup hnd
  have h2 : l'.toFinset.card = l'.length := List.toFinset_card_of_nodup hnd'
  have hsub' : l.toFinset ⊆ l'.toFinset := by
    intro x hx
    rw [List.mem_toFinset] at hx ⊢
    exact hsub x hx
  have := Finset.card_le_card hsub'
  omega

theorem filter_length_succ {u : String} {p : String → Bool} (hp : p u = true) :
    ∀ {l : List String}, u ∈ l → l.Nodup →
    (l.filter p).length =
      (l.filter (fun v => p v && !(v == u))).length + 1 := by
  intro l
  induction l with
  | nil => intro hu; cases hu
  | cons a rest ih =>
    intro hu hnd
    rcases List.mem_cons.mp hu with rfl | hu'
    · have hnotin : u ∉ rest := (List.nodup_cons.mp hnd).1
      have hfe : rest.filter (fun v => p v && !(v == u)) = rest.filter p := by
        apply List.filter_congr
        intro v hv
        have : (v == u) = false :=
          beq_eq_false_iff_ne.mpr (fun he => hnotin (he ▸ hv))
        simp [this]
      simp only [List.filter_cons, hp, beq_self_eq_true, Bool.not_true,
        Bool.and_false, if_true, if_false, hfe]
      simp
    · have hnd' := (List.nodup_cons.mp hnd).2
      have hau : (a == u) = false :=
        beq_eq_false_iff_ne.mpr
          (fun he => (List.nodup_cons.mp hnd).1 (he ▸ hu'))
      cases hpa : p a with
      | true =>
        simp only [List.filter_cons, hpa, hau, Bool.not_false, Bool.and_true,
          if_true, List.length_cons]
        rw [ih hu' hnd']
      | false =>
        simp only [List.filter_cons, hpa, Bool.false_and, if_false]
        exact ih hu' hnd'

theorem unstoredCount_after_store {fs : FileSys}
    {store : List (String × DocRecord)} {u : String} {r : DocRecord}
    (hu : u ∈ fsKeys fs) (hunstored : storeHas store u = false) :
    unstoredCount fs (store ++ [(u, r)]) + 1 = unstoredCount fs store := by
  unfold unstoredCount
  have hcong : ∀ v ∈ fsKeys fs, (!(storeHas (store ++ [(u, r)]) v)) =
      ((!(storeHas store v)) && !(v == u)) := by
    intro v _
    rw [storeHas_append]
    cases storeHas store v <;> cases hv : (v == u) <;> simp
  rw [List.filter_congr hcong]
  have hres := filter_length_succ (u := u) (p := fun v => !(storeHas store v))
    (by simp [hunstored]) hu (List.nodup_dedup _)
  have hres2 : (List.filter (fun v => !storeHas store v) (fsKeys fs)).length =
      (List.filter (fun v => !storeHas store v && !(v == u)) (fsKeys fs)).length
        + 1 := by simpa using hres
  omega

theorem queue_length_bound {fs : FileSys} {store : List (String × DocRecord)}
    {queue : List (String × Bool)} (hnd : (queue.map Prod.fst).Nodup)
    (hgood : ∀ q ∈ queue, fsExists fs q.1 = true)
    (hunst : ∀ q ∈ queue, storeHas store q.1 = false) :
    queue.length ≤ unstoredCount fs store := by
  have hlen : queue.length = (queue.map Prod.fst).length := by simp
  rw [hlen]
  unfold unstoredCount
  apply nodup_subset_length hnd _ (List.Nodup.filter _ (List.nodup_dedup _))
  intro x hx
  rcases List.mem_map.mp hx with ⟨q, hq, rfl⟩
  rw [List.mem_filter]
  exact ⟨fsExists_mem_fsKeys (hgood q hq), by simp [hunst q hq]⟩

theorem lookup_isSome_of_mem {α : Type} {l : List (String × α)} {x : String}
    (h : x ∈ l.map Prod.fst) : (l.lookup x).isSome = true := by
  induction l with
  | nil => simp at h
  | cons p rest ih =>
    obtain ⟨k, b⟩ := p
    rw [List.map_cons] at h
    rcases List.mem_cons.mp h with rfl | h'
    · simp [List.lookup]
    · cases hp : (x == k) with
      | true => simp [List.lookup, hp]
      | false => simpa [List.lookup, hp] using ih h'

theorem storeHas_iff {s : List (String × DocRecord)} {x : String} :
    storeHas s x = true ↔ x ∈ storeKeys s := by
  unfold storeHas storeKeys
  constructor
  · intro h
    rcases Option.isSome_iff_exists.mp h with ⟨v, hv⟩
    exact List.mem_map_of_mem _ (lookup_mem hv)
  · exact lookup_isSome_of_mem

/-- Main invariant induction for the full scan with import-following: with
enough fuel the traversal drains the queue, succeeds, and the final Store
(equal to the read log, duplicate-free) contains every queued URI, is
closed under resolved link targets, and contains only URIs reachable from
`root`. -/
theorem scanAux_closure (fs : FileSys) (root : String)
    (hok : ∀ p ∈ fs, p.2 ≠ FileEntry.err) :
    ∀ (fuel : Nat) (queue : List (String × Bool)) (st : ScanState),
    queue.length + (K fs + 1) * unstoredCount fs st.store ≤ fuel →
    (∀ u ∈ storeKeys st.store, Reaches fs root u) →
    (∀ q ∈ queue, Reaches fs root q.1) →
    (∀ u ∈ storeKeys st.store, ∀ v ∈ docTargets fs u,
      v ∈ storeKeys st.store ∨ v ∈ queue.map Prod.fst) →
    (∀ q ∈ queue, fsExists fs q.1 = true ∧ acceptedExt q.1 = true) →
    (∀ q ∈ queue, storeHas st.store q.1 = false) →
    (queue.map Prod.fst).Nodup →
    (storeKeys st.store).Nodup →
    st.readLog = storeKeys st.store →
    ∃ st', scanAux fs true fuel queue st = .ok st' ∧
      (∀ u ∈ storeKeys st.store, u ∈ storeKeys st'.store) ∧
      (∀ q ∈ queue, q.1 ∈ storeKeys st'.store) ∧
      (∀ u ∈ storeKeys st'.store, ∀ v ∈ docTargets fs u,
        v ∈ storeKeys st'.store) ∧
      (∀ u ∈ storeKeys st'.store, Reaches fs root u) ∧
      (storeKeys st'.store).Nodup ∧
      st'.readLog = storeKeys st'.store := by
  intro fuel
  induction fuel with
  | zero =>
    intro queue st hfuel hstR hqR hcl hgood hunst hndq hnds hlog
    have hq : queue = [] := List.length_eq_zero.mp (by omega)
    subst hq
    refine ⟨st, rfl, fun u hu => hu, by simp, ?_, hstR, hnds, hlog⟩
    intro u hu v hv
    rcases hcl u hu v hv with h | h
    · exact h
    · simp at h
  | succ fuel ih =>
    intro queue st hfuel hstR hqR hcl hgood hunst hndq hnds hlog
    match queue with
    | [] =>
      refine ⟨st, rfl, fun u hu => hu, by simp, ?_, hstR, hnds, hlog⟩
      intro u hu v hv
      rcases hcl u hu v hv with h | h
      · exact h
      · simp at h
    | (uri, isSeed) :: rest =>
      simp only [List.length_cons] at hfuel
      have hhead := List.mem_cons_self (uri, isSeed) rest
      have hu_unst : storeHas st.store uri = false := hunst _ hhead
      have hu_good := hgood _ hhead
      obtain ⟨content, hcontent⟩ := fsRead_of_ok hok hu_good.1
      set record := parseDocument fs uri content with hrecord
      set store' := st.store ++ [(uri, record)] with hstore'
      set st' : ScanState := ⟨store', st.readLog ++ [uri]⟩ with hst'
      set queue' := enqueueNew store' rest (recordTargets record) with hqueue'
      have hkeys' : storeKeys store' = storeKeys st.store ++ [uri] := by
        simp [hstore', storeKeys]
      have hmem_store' : ∀ x, x ∈ storeKeys store' ↔
          x ∈ storeKeys st.store ∨ x = uri := by
        intro x
        rw [hkeys']
        simp
      have hsh' : ∀ x, storeHas store' x = (storeHas st.store x || x == uri) :=
        fun x => storeHas_append _ _ _ _
      have htargets : docTargets fs uri = recordTargets record :=
        docTargets_eq hcontent
      have hndrest : (rest.map Prod.fst).Nodup := by
        have h0 := hndq
        simp only [List.map_cons] at h0
        exact (List.nodup_cons.mp h0).2
      have huri_notin_rest : uri ∉ rest.map Prod.fst := by
        have h0 := hndq
        simp only [List.map_cons] at h0
        exact (List.nodup_cons.mp h0).1
      have hndq' : (queue'.map Prod.fst).Nodup :=
        nodup_keys_enqueueNew store' _ rest hndrest
      have hmemq' : ∀ x, x ∈ queue'.map Prod.fst ↔
          x ∈ rest.map Prod.fst ∨
            (x ∈ recordTargets record ∧ storeHas store' x = false) :=
        fun x => mem_keys_enqueueNew store' _ rest x
      have hgood' : ∀ q ∈ queue',
          fsExists fs q.1 = true ∧ acceptedExt q.1 = true := by
        intro q hq
        have hx : q.1 ∈ queue'.map Prod.fst := List.mem_map_of_mem _ hq
        rcases (hmemq' q.1).mp hx with hx' | ⟨hx', -⟩
        · rcases List.mem_map.mp hx' with ⟨p, hp, hpe⟩
          exact hpe ▸ hgood p (List.mem_cons_of_mem _ hp)
        · rw [hrecord] at hx'
          exact recordTargets_good hx'
      have hunst' : ∀ q ∈ queue', storeHas store' q.1 = false := by
        intro q hq
        have hx : q.1 ∈ queue'.map Prod.fst := List.mem_map_of_mem _ hq
        rcases (hmemq' q.1).mp hx with hx' | ⟨-, hx'⟩
        · rcases List.mem_map.mp hx' with ⟨p, hp, hpe⟩
          rw [hsh']
          have hb1 : storeHas st.store q.1 = false :=
            hpe ▸ hunst p (List.mem_cons_of_mem _ hp)
          have hb2 : (q.1 == uri) = false :=
            beq_eq_false_iff_ne.mpr (fun he => huri_notin_rest (he ▸ hx'))
          rw [hb1, hb2]
          rfl
        · exact hx'
      have hqR' : ∀ q ∈ queue', Reaches fs root q.1 := by
        intro q hq
        have hx : q.1 ∈ queue'.map Prod.fst := List.mem_map_of_mem _ hq
        rcases (hmemq' q.1).mp hx with hx' | ⟨hx', -⟩
        · rcases List.mem_map.mp hx' with ⟨p, hp, hpe⟩
          exact hpe ▸ hqR p (List.mem_cons_of_mem _ hp)
        · have hq1T : q.1 ∈ docTargets fs uri := by
            rw [htargets]
            exact hx'
          exact Reaches.step (hqR _ hhead) hq1T
      have hstR' : ∀ u ∈ storeKeys store', Reaches fs root u := by
        intro u hu
        rcases (hmem_store' u).mp hu with hu' | rfl
        · exact hstR u hu'
        · exact hqR _ hhead
      have hcl' : ∀ u ∈ storeKeys store', ∀ v ∈ docTargets fs u,
          v ∈ storeKeys store' ∨ v ∈ queue'.map Prod.fst := by
        intro u hu v hv
        rcases (hmem_store' u).mp hu with hu' | rfl
        · rcases hcl u hu' v hv with h | h
          · exact Or.inl ((hmem_store' v).mpr (Or.inl h))
          · rw [List.map_cons] at h
            rcases List.mem_cons.mp h with rfl | h'
            · exact Or.inl ((hmem_store' v).mpr (Or.inr rfl))
            · exact Or.inr ((hmemq' v).mpr (Or.inl h'))
        · have hvT : v ∈ recordTargets record := by
            rw [← htargets]
            exact hv
          by_cases hvs : storeHas store' v = true
          · exact Or.inl (storeHas_iff.mp hvs)
          · exact Or.inr ((hmemq' v).mpr (Or.inr ⟨hvT, by simpa using hvs⟩))
      have hnds' : (storeKeys store').Nodup := by
        rw [hkeys', List.nodup_append]
        refine ⟨hnds, List.nodup_singleton _, ?_⟩
        intro x hx hx'
        rcases List.mem_singleton.mp hx' with rfl
        exact absurd (storeHas_iff.mpr hx) (by simp [hu_unst])
      have hlog' : st'.readLog = storeKeys store' := by
        rw [hkeys']
        simp [hst', hlog]
      have huK : uri ∈ fsKeys fs := fsExists_mem_fsKeys hu_good.1
      have hUdec := unstoredCount_after_store (r := record) huK hu_unst
      have hqlen : queue'.length ≤ unstoredCount fs store' :=
        queue_length_bound hndq' (fun q hq => (hgood' q hq).1) hunst'
      have hUK : unstoredCount fs store' ≤ K fs := by
        unfold unstoredCount K
        exact List.length_filter_le _ _
      have hfuel' :
          queue'.length + (K fs + 1) * unstoredCount fs store' ≤ fuel := by
        have hmul : (K fs + 1) * unstoredCount fs st.store =
            (K fs + 1) * unstoredCount fs store' + (K fs + 1) := by
          rw [← hUdec]
          ring
        omega
      obtain ⟨stF, hrun, hmono, hqin, hclF, hRF, hndF, hlogF⟩ :=
        ih queue' st' hfuel' hstR' hqR' hcl' hgood' hunst' hndq' hnds' hlog'
      refine ⟨stF, ?_, ?_, ?_, hclF, hRF, hndF, hlogF⟩
      · simp only [scanAux, hu_unst, Bool.false_eq_true, if_false,
          hu_good.1, hu_good.2, Bool.and_self, Bool.not_true, hcontent]
        exact hrun
      · intro u hu
        exact hmono u ((hmem_store' u).mpr (Or.inl hu))
      · intro q hq
        rcases List.mem_cons.mp hq with rfl | hq'
        · exact hmono uri ((hmem_store' uri).mpr (Or.inr rfl))
        · exact hqin q (enqueueNew_subset store' _ rest q hq')

/-- C1: with import-following enabled, `scan([root])` succeeds and leaves
the Store containing exactly the URIs reachable from `root` through
resolved use/forward/import links — a characterization independent of
traversal order — with each stored file read exactly once; in particular,
for seed A importing `variables.scss`, the Store holds exactly those two
entries and the read log is exactly those two reads. -/
theorem scan_reachable_closure (fs : FileSys) (root : String)
    (hok : ∀ p ∈ fs, p.2 ≠ FileEntry.err)
    (hex : fsExists fs root = true) (hext : acceptedExt root = true) :
    ∃ st, scan fs true [root] = .ok st ∧
      (∀ u, u ∈ storeKeys st.store ↔ Reaches fs root u) ∧
      st.readLog = storeKeys st.store ∧
      (∀ u ∈ storeKeys st.store, st.readLog.count u = 1) ∧
      (∃ st2, scan exampleFs true ["/index.scss"] = .ok st2 ∧
        storeKeys st2.store = ["/index.scss", "/variables.scss"] ∧
        st2.readLog = ["/index.scss", "/variables.scss"]) := by
  have hU0 : unstoredCount fs ([] : List (String × DocRecord)) = K fs := by
    unfold unstoredCount K
    have hf : List.filter
        (fun u => !storeHas ([] : List (String × DocRecord)) u) (fsKeys fs) =
        fsKeys fs :=
      List.filter_eq_self.mpr (fun u _ => rfl)
    rw [hf]
  have hKL : K fs ≤ fs.length := by
    unfold K fsKeys
    calc ((fs.map Prod.fst).dedup).length
        ≤ (fs.map Prod.fst).length := (List.dedup_sublist _).length_le
      _ = fs.length := by simp
  obtain ⟨st, hrun, hmono, hqin, hcl, hR, hnd, hlog⟩ :=
    scanAux_closure fs root hok (scanFuel fs [root]) [(root, true)] ⟨[], []⟩
      (by
        rw [hU0]
        unfold scanFuel
        have hle : (K fs + 1) * K fs ≤ (fs.length + 1) * (fs.length + 1) :=
          Nat.mul_le_mul (by omega) (by omega)
        simp only [List.length_cons, List.length_nil]
        omega)
      (by simp [storeKeys])
      (by
        intro q hq
        rcases List.mem_singleton.mp hq with rfl
        exact Reaches.refl)
      (by simp [storeKeys])
      (by
        intro q hq
        rcases List.mem_singleton.mp hq with rfl
        exact ⟨hex, hext⟩)
      (by
        intro q hq
        rcases List.mem_singleton.mp hq with rfl
        rfl)
      (by simp)
      (by simp [storeKeys])
      rfl
  refine ⟨st, hrun, ?_, hlog, ?_, ⟨_, rfl, by decide, by decide⟩⟩
  · intro u
    constructor
    · exact hR u
    · intro hreach
      induction hreach with
      | refl => exact hqin (root, true) (List.mem_singleton.mpr rfl)
      | step hu hv ihm => exact hcl _ ihm _ hv
  · intro u hu
    rw [hlog]
    exact List.count_eq_one_of_mem hnd hu

/-- Witness for C1: the two-file example workspace. -/
theorem scan_reachable_closure_witness :
    ∃ st, scan exampleFs true ["/index.scss"] = .ok st ∧
      (∀ u, u ∈ storeKeys st.store ↔ Reaches exampleFs "/index.scss" u) ∧
      st.readLog = storeKeys st.store ∧
      (∀ u ∈ storeKeys st.store, st.readLog.count u = 1) ∧
      (∃ st2, scan exampleFs true ["/index.scss"] = .ok st2 ∧
        storeKeys st2.store = ["/index.scss", "/variables.scss"] ∧
        st2.readLog = ["/index.scss", "/variables.scss"]) :=
  scan_reachable_closure exampleFs "/index.scss" (by decide) (by decide)
    (by decide)

end SomeSass
